import Mathlib

set_option linter.unusedVariables false
set_option linter.unusedSectionVars false

/-!
Verification of the `gkr` repository (sum-check protocol and a linear-GKR
phase protocol) against its natural-language specification.

The Rust sources are shallowly embedded:
* `ml_extension.rs` — `DenseMLE`, `SparseMLE` and their operations, generic
  over a commutative ring with decidable equality (the source is generic over
  an arkworks `Field`; only ring operations and zero-tests are used).
  The Rust `HashMap<usize, F>` is modelled as an association list
  (first binding wins, as `List.lookup` does; a `HashMap` has unique keys).
* `sumcheck.rs` — the generic engine: multivariate sparse polynomials, the
  honest prover's round-polynomial generator and the `verify` procedure.
  arkworks' univariate sparse polynomials are modelled in the equivalent
  canonical dense form (coefficient list without trailing zeros, which is in
  bijection with the sorted zero-free sparse form and has the same
  `evaluate`, `+` and `degree`).  A Rust `assert!` failure (panic) is
  modelled as the boolean verifier returning `false`; `usize` indexing that
  the source's invariants keep in bounds is modelled with `getD`.
* `prover.rs` / `verifier.rs` — the linear GKR phase protocol over the
  BLS12-381 scalar field `Fr`.  The ambient random generator (`get_r`) is
  modelled as an explicit challenge tape `ℕ → F`, one entry per draw.
-/

namespace GKR

/-- Value of a Bool list read MSB-first as a binary number (the flat-index
encoding the spec states: bit i of a point maps to bit `n-1-i` of the index). -/
def bitsToIndex (bs : List Bool) : ℕ :=
  bs.foldl (fun acc b => 2 * acc + (if b then 1 else 0)) 0

variable {F : Type} [CommRing F] [DecidableEq F]

/-- `DenseMLE` of `ml_extension.rs`: evaluations over `{0,1}^num_vars`
(`from_evaluations_vec` asserts `length = 2^num_vars`; that invariant is a
hypothesis of the theorems that need it). -/
structure DenseMLE (F : Type) where
  num_vars : ℕ
  evaluations : List F

/-- `SparseMLE` of `ml_extension.rs`; the `HashMap<usize, F>` is an
association list (unique keys in the real map; `List.lookup` = first hit). -/
structure SparseMLE (F : Type) where
  num_vars : ℕ
  evaluations : List (ℕ × F)

/-- The index loop of `DenseMLE::evaluate`: for each coordinate `i`, OR in
bit `num_vars - 1 - i` when the coordinate is non-zero. -/
def pointIndex (n : ℕ) (point : List F) : ℕ :=
  point.enum.foldl
    (fun (index : ℕ) (ib : ℕ × F) =>
      if ib.2 = 0 then index else index ||| (1 <<< (n - 1 - ib.1))) 0

/-- `DenseMLE::evaluate`: asserts the dimension (modelled as `none`), then
looks up the flat index; an out-of-range index (a Rust panic) is also `none`. -/
def DenseMLE.evaluate (d : DenseMLE F) (point : List F) : Option F :=
  if point.length = d.num_vars then d.evaluations[pointIndex d.num_vars point]? else none

/-- The validity loop of `SparseMLE::fix_variables`: the leading
`fixed.length` bits of `idx` (MSB-first) match the zero/non-zero pattern of
`fixed`. -/
def prefixMatch (n : ℕ) (fixed : List F) (idx : ℕ) : Bool :=
  (List.range fixed.length).all
    (fun i => idx >>> (n - 1 - i) &&& 1 == if fixed.getD i 0 = 0 then 0 else 1)

/-- The re-indexing loop of `SparseMLE::fix_variables`: collect bits
`fixed_count..n-1` of `idx` MSB-first. -/
def reindex (n fc idx : ℕ) : ℕ :=
  (List.range (n - fc)).foldl
    (fun acc j => acc <<< 1 ||| (idx >>> (n - 1 - (fc + j)) &&& 1)) 0

/-- `SparseMLE::fix_variables` (fixes the leading variables; the source
asserts `fixed.len() ≤ num_vars`, a hypothesis of the theorems using it). -/
def SparseMLE.fix_variables (f : SparseMLE F) (fixed : List F) : SparseMLE F :=
  { num_vars := f.num_vars - fixed.length
    evaluations := f.evaluations.filterMap (fun iv =>
      if prefixMatch f.num_vars fixed iv.1
      then some (reindex f.num_vars fixed.length iv.1, iv.2) else none) }

/-- `SparseMLE::to_dense_multilinear_extension`: a zero-filled table of size
`2^num_vars` overwritten at the present indices. -/
def SparseMLE.to_dense_multilinear_extension (f : SparseMLE F) : DenseMLE F :=
  { num_vars := f.num_vars
    evaluations := (List.range (2 ^ f.num_vars)).map
      (fun i => (f.evaluations.lookup i).getD 0) }

/-- Zero/non-zero pattern of a point (the Boolean semantics the source
applies to every coordinate). -/
def boolPattern (p : List F) : List Bool := p.map (fun a => decide (a ≠ 0))

/-! ### Generic sum-check engine (`sumcheck.rs`, upper half)

`MultiPoly` models arkworks' multivariate `SparsePolynomial<F, SparseTerm>`:
a declared variable count and a list of terms `(coefficient, [(var, power)])`.
arkworks' `SparseTerm::new` keeps each variable at most once and
`from_coefficients` keeps `var < num_vars`; these data-structure invariants
are the `MPolyInv` hypothesis below.  Univariate polynomials (`UniPoly`)
are modelled as dense coefficient lists without trailing zeros, the
canonical form arkworks' sparse representation also maintains (addition
merges equal degrees and drops zero coefficients): `ueval`, `uadd` and
`udegree` agree with the source's `evaluate`, `+` and `degree`. -/
structure MultiPoly (F : Type) where
  num_vars : ℕ
  terms : List (F × List (ℕ × ℕ))

/-- arkworks `SparseTerm::evaluate`: product of `point[var]^power`. -/
def term_evaluate (point : List F) (entries : List (ℕ × ℕ)) : F :=
  (entries.map (fun vp => point.getD vp.1 0 ^ vp.2)).prod

/-- arkworks multivariate `SparsePolynomial::evaluate`: sum of
`coeff * term.evaluate(point)` (indices in bounds under `MPolyInv`). -/
def MultiPoly.evaluate (g : MultiPoly F) (point : List F) : F :=
  (g.terms.map (fun ct => ct.1 * term_evaluate point ct.2)).sum

/-- `n_to_vec`: the MSB-first bit vector of `i`, padded to width `n`, as 0/1
field elements (the source formats `i` in binary; equal for `i < 2^n`, the
only range callers use). -/
def n_to_vec (i n : ℕ) : List F :=
  (List.range n).map (fun j => if i.testBit (n - 1 - j) then 1 else 0)

/-- Coefficient-wise addition (before trimming). -/
def uadd_aux : List F → List F → List F
  | [], q => q
  | p, [] => p
  | a :: p, b :: q => (a + b) :: uadd_aux p q

/-- Drop trailing zero coefficients (arkworks keeps no zero coefficients). -/
def utrim : List F → List F
  | [] => []
  | a :: t =>
    match utrim t with
    | [] => if a = 0 then [] else [a]
    | b :: t2 => a :: b :: t2

/-- Univariate polynomial addition in canonical form. -/
def uadd (p q : List F) : List F := utrim (uadd_aux p q)

/-- Univariate evaluation (Horner form of `Σ coeff_i · x^i`). -/
def ueval (p : List F) (x : F) : F := p.foldr (fun c acc => c + x * acc) 0

/-- `degree()` of the canonical form: largest stored degree, 0 for the zero
polynomial. -/
def udegree (p : List F) : ℕ := p.length - 1

/-- `from_coefficients_vec(vec![(d, c)])`: the monomial `c·x^d` in canonical
form (a zero coefficient is dropped). -/
def umonomial (d : ℕ) (c : F) : List F :=
  if c = 0 then [] else List.replicate d 0 ++ [c]

/-- `Prover::evaluate_term` with `self.r_vec = r_vec`: folds over the term's
entries, recording the power of the currently-symbolic variable
(`var = r_vec.len()`) and multiplying bound/free variable values into the
coefficient.  Returns `(coefficient, power of the symbolic variable)`
(the source's `Option<SparseTerm>` carries only that degree). -/
def evaluate_term_step (r_vec point : List F) (acc : F × Option ℕ) (vp : ℕ × ℕ) :
    F × Option ℕ :=
  if vp.1 = r_vec.length then (acc.1, some vp.2)
  else if vp.1 < r_vec.length then (r_vec.getD vp.1 0 ^ vp.2 * acc.1, acc.2)
  else (point.getD (vp.1 - r_vec.length) 0 ^ vp.2 * acc.1, acc.2)

def evaluate_term (r_vec point : List F) (entries : List (ℕ × ℕ)) : F × Option ℕ :=
  entries.foldl (evaluate_term_step r_vec point) (1, none)

/-- `Prover::evaluate_gj`: sum over the terms of the univariate monomial each
term contributes at the given Boolean completion `points`. -/
def evaluate_gj (g : MultiPoly F) (r_vec points : List F) : List F :=
  g.terms.foldl
    (fun sum ct =>
      uadd (umonomial ((evaluate_term r_vec points ct.2).2.getD 0)
        (ct.1 * (evaluate_term r_vec points ct.2).1)) sum) []

/-- `Prover::gen_uni_polynomial` for the prover state `{g, r_vec}` (the
source pushes the optional challenge into `r_vec` first; callers of this
embedding extend `r_vec` themselves, mirroring that push). -/
def gen_uni_polynomial (g : MultiPoly F) (r_vec : List F) : List F :=
  (List.range (2 ^ (g.num_vars - r_vec.length - 1))).foldl
    (fun sum n => uadd sum (evaluate_gj g r_vec (n_to_vec n (g.num_vars - r_vec.length))))
    (umonomial 0 0)

/-- `Prover::slow_sum_g`: the sum of `g` over the whole Boolean hypercube. -/
def slow_sum_g (g : MultiPoly F) : F :=
  ((List.range (2 ^ g.num_vars)).map (fun n => g.evaluate (n_to_vec n g.num_vars))).sum

/-- `max_degrees`: per-variable maximum exponent table. -/
def max_degrees (g : MultiPoly F) : List ℕ :=
  g.terms.foldl
    (fun lookup ct => ct.2.foldl
      (fun lk (vp : ℕ × ℕ) => if lk.getD vp.1 0 < vp.2 then lk.set vp.1 vp.2 else lk)
      lookup)
    (List.replicate g.num_vars 0)

/-- The middle and final rounds of `verify` (the loop `for j in 1..num_vars`
and the final direct evaluation).  `cs` is the remaining challenge tape,
`r_vec` the challenges drawn so far, `gi` the current round polynomial; a
failed `assert!` is `false`. -/
def sc_rounds (g : MultiPoly F) (lookup : List ℕ) :
    List F → List F → List F → Bool
  | [], _, _ => false
  | r :: cs, r_vec, gi =>
    if cs.isEmpty then
      decide (ueval gi r = g.evaluate (r_vec ++ [r]))
    else
      decide (ueval gi r = ueval (gen_uni_polynomial g (r_vec ++ [r])) 0
          + ueval (gen_uni_polynomial g (r_vec ++ [r])) 1)
        && decide (udegree (gen_uni_polynomial g (r_vec ++ [r]))
            ≤ lookup.getD (r_vec.length + 1) 0)
        && sc_rounds g lookup cs (r_vec ++ [r]) (gen_uni_polynomial g (r_vec ++ [r]))

/-- `verify` of `sumcheck.rs`: regenerates the honest round polynomials and
checks round 1 against the claim `c_1`, each round's sum-consistency and
degree bound, and finally `g` evaluated directly at the full challenge
vector.  The random draws of `get_r()` are supplied as the list
`challenges`; a failed `assert!` is `false`. -/
def verify (g : MultiPoly F) (c_1 : F) (challenges : List F) : Bool :=
  decide (c_1 = ueval (gen_uni_polynomial g []) 0 + ueval (gen_uni_polynomial g []) 1)
    && decide (udegree (gen_uni_polynomial g []) ≤ (max_degrees g).getD 0 0)
    && sc_rounds g (max_degrees g) challenges [] (gen_uni_polynomial g [])

/-- Sum of a function over the Boolean hypercube `{0,1}^m` (0/1 field
elements, first variable outermost) — the mathematical reading of the
hypercube enumerations in the source. -/
def sumHyp : ℕ → (List F → F) → F
  | 0, f => f []
  | m + 1, f => sumHyp m (fun b => f (0 :: b)) + sumHyp m (fun b => f (1 :: b))

/-- The data-structure invariants of arkworks' sparse multivariate
polynomials: within a term each variable occurs at most once, and every
variable index is below the declared variable count. -/
def MPolyInv (g : MultiPoly F) : Prop :=
  ∀ ct ∈ g.terms, (ct.2.map Prod.fst).Nodup ∧ ∀ vp ∈ ct.2, vp.1 < g.num_vars

/-- The value the sum-check prover assigns to variable `var` once the first
`r_vec.length` variables are bound, the current one is the symbolic `t` and
the later ones come from the Boolean completion `points`. -/
def scValue (r_vec : List F) (t : F) (points : List F) (var : ℕ) : F :=
  if var < r_vec.length then r_vec.getD var 0
  else if var = r_vec.length then t
  else points.getD (var - r_vec.length) 0

/-- One update of the `max_degrees` inner loop. -/
def max_degrees_step (lk : List ℕ) (vp : ℕ × ℕ) : List ℕ :=
  if lk.getD vp.1 0 < vp.2 then lk.set vp.1 vp.2 else lk

/-- One term's update of the `max_degrees` outer loop. -/
def max_degrees_outer (lk : List ℕ) (ct : F × List (ℕ × ℕ)) : List ℕ :=
  ct.2.foldl max_degrees_step lk

/-- The modulus `r` of the BLS12-381 scalar field (`ark_bls12_381::Fr`). -/
def blsScalarModulus : ℕ :=
  52435875175126190479447740508185965837690552500527637822603658699938581184513

/-- The scalar field the sum-check and GKR code is specialized to. -/
abbrev Fr : Type := ZMod blsScalarModulus

/-- The polynomial `x₀·x₁ + x₀` over two variables, used as C6's witness. -/
def gWitness : MultiPoly Fr := ⟨2, [(1, [(0, 1), (1, 1)]), (1, [(0, 1)])]⟩

/-! ### The interactive sum-check protocol module of `sumcheck.rs`
(`protocol`), used by the linear GKR prover/verifier.  The source marks
these as dummy implementations: `prove_round` always sends `[0, 1]`,
`apply_challenge`/`apply_challenge_verifier` leave the state unchanged,
`verify_round` always succeeds, and `finalize` compares the (never updated)
running sum with the claimed sum and returns the all-ones point. -/
structure ProverState (F : Type) where
  num_vars : ℕ
  current_sum : F

structure VerifierState (F : Type) where
  num_vars : ℕ
  current_sum : F

def prover_init (num_vars : ℕ) (claimed_sum : F) : ProverState F :=
  ⟨num_vars, claimed_sum⟩

/-- `protocol::prove_round` (the `rng` argument is unused by the source). -/
def prove_round (state : ProverState F) : List F := [0, 1]

def apply_challenge (state : ProverState F) (r : F) : ProverState F := state

def apply_challenge_verifier (state : VerifierState F) (r : F) : VerifierState F :=
  state

def verifier_init (num_vars : ℕ) (claimed_sum : F) : VerifierState F :=
  ⟨num_vars, claimed_sum⟩

def verify_round (state : VerifierState F) (msg : List F) : Except String Unit :=
  Except.ok ()

structure Subclaim (F : Type) where
  point : List F
  expected_value : F

def finalize (state : VerifierState F) (claimed_sum : F) :
    Except String (Subclaim F) :=
  if state.current_sum = claimed_sum then
    Except.ok ⟨List.replicate state.num_vars 1, claimed_sum⟩
  else Except.error "Final sum-check failed"

/-! ### Linear GKR prover (`prover.rs`) and verifier (`verifier.rs`),
specialized to `Fr` in the source; the embedding is generic and the claim
theorems instantiate `Fr`.  `get_r()` draws are the entries of an explicit
tape `ℕ → F` (the prover and the verifier each draw from their own `rng`). -/
structure LinearGKRProof (F : Type) where
  phase1_msgs : List (List F)
  phase2_msgs : List (List F)

structure LinearGKRSubclaim (F : Type) where
  u : List F
  v : List F
  expected_value : F

/-- `initialize_phase_one`: fix `f1`'s leading `l` variables to `g`, then
accumulate `h[x] += val * f3[y]` over the non-zero entries of the fixed map,
with `x = index & ((1 << l) - 1)` and `y = index >> l` exactly as the source
splits the flat index (out-of-range `f3` reads, a Rust panic, are `getD 0`;
the source's `assert_eq!(f1.num_vars, 3*l)` is a hypothesis where needed). -/
def initialize_phase_one (f1 : SparseMLE F) (f3 : DenseMLE F) (g : List F) :
    DenseMLE F × SparseMLE F :=
  (⟨g.length,
    (f1.fix_variables g).evaluations.foldl
      (fun (h : List F) (iv : ℕ × F) =>
        if iv.2 = 0 then h
        else h.set (iv.1 &&& ((1 <<< g.length) - 1))
          (h.getD (iv.1 &&& ((1 <<< g.length) - 1)) 0
            + iv.2 * f3.evaluations.getD (iv.1 >>> g.length) 0))
      (List.replicate (1 <<< g.length) 0)⟩,
   f1.fix_variables g)

/-- `initialize_phase_two`: fix the `x`-variables to `u` and materialize. -/
def initialize_phase_two (f1_fixed_g : SparseMLE F) (u : List F) : DenseMLE F :=
  (f1_fixed_g.fix_variables u).to_dense_multilinear_extension

/-- `compute_claimed_sum`: `Σ_i h_g[i] * f2[i]` over `i < 2^l`. -/
def compute_claimed_sum (h_g f2 : DenseMLE F) : F :=
  ((List.range (1 <<< h_g.num_vars)).map
    (fun i => h_g.evaluations.getD i 0 * f2.evaluations.getD i 0)).sum

/-- `compute_dense_sum`: `Σ_i f1_fixed_gu[i] * f3[i]` over `i < 2^l`. -/
def compute_dense_sum (f1_fixed_gu f3 : DenseMLE F) : F :=
  ((List.range (1 <<< f1_fixed_gu.num_vars)).map
    (fun i => f1_fixed_gu.evaluations.getD i 0 * f3.evaluations.getD i 0)).sum

/-- The per-phase round loop of `LinearGKRProver::prove`: `n` rounds from
tape position `base`, returning the messages, the drawn challenges and the
final state. -/
def prove_rounds (tape : ℕ → F) :
    ℕ → ℕ → ProverState F → List (List F) × List F × ProverState F
  | _, 0, st => ([], [], st)
  | base, n + 1, st =>
    (prove_round st
        :: (prove_rounds tape (base + 1) n (apply_challenge st (tape base))).1,
      tape base
        :: (prove_rounds tape (base + 1) n (apply_challenge st (tape base))).2.1,
      (prove_rounds tape (base + 1) n (apply_challenge st (tape base))).2.2)

/-- `LinearGKRProver::prove` (the `f2.evaluate(&u)` unwrap is `getD 0`; it
cannot fail when `f2.num_vars = g.len()`, as in the claims' scenarios). -/
def LinearGKRProver.prove (f1 : SparseMLE F) (f2 f3 : DenseMLE F) (g : List F)
    (tape : ℕ → F) : LinearGKRProof F :=
  let l := g.length
  let phase_one := initialize_phase_one f1 f3 g
  let claimed_sum_phase1 := compute_claimed_sum phase_one.1 f2
  let phase1 := prove_rounds tape 0 l (prover_init l claimed_sum_phase1)
  let u := phase1.2.1
  let f1_fixed_gu := initialize_phase_two phase_one.2 u
  let f2_at_u := (f2.evaluate u).getD 0
  let claimed_sum_phase2 := f2_at_u * compute_dense_sum f1_fixed_gu f3
  let phase2 := prove_rounds tape l l (prover_init l claimed_sum_phase2)
  ⟨phase1.1, phase2.1⟩

/-- The per-phase round loop of `LinearGKRVerifier::verify`: check each
message, draw a challenge, update the state; returns the final state and
the accumulated challenge vector. -/
def verify_rounds (tape : ℕ → F) :
    List (List F) → ℕ → VerifierState F → Except String (VerifierState F × List F)
  | [], _, st => Except.ok (st, [])
  | msg :: rest, base, st =>
    match verify_round st msg with
    | Except.error e => Except.error e
    | Except.ok _ =>
      match verify_rounds tape rest (base + 1) (apply_challenge_verifier st (tape base)) with
      | Except.error e => Except.error e
      | Except.ok (stf, us) => Except.ok (stf, tape base :: us)

/-- `LinearGKRVerifier::verify`: length check, Phase-1 rounds and finalize,
Phase-2 rounds (claimed sum = Phase-1's expected value) and finalize; the
returned subclaim takes its `u` and `v` from the two `finalize` points, as
the source does (the locally accumulated challenge vectors are dropped). -/
def LinearGKRVerifier.verify (f2_num_vars : ℕ) (claimed_sum : F)
    (proof : LinearGKRProof F) (tape : ℕ → F) :
    Except String (LinearGKRSubclaim F) :=
  if proof.phase1_msgs.length ≠ f2_num_vars ∨ proof.phase2_msgs.length ≠ f2_num_vars then
    Except.error "Invalid proof length"
  else
    match verify_rounds tape proof.phase1_msgs 0
        (verifier_init f2_num_vars claimed_sum) with
    | Except.error e => Except.error e
    | Except.ok (st1f, _u) =>
      match finalize st1f claimed_sum with
      | Except.error e => Except.error e
      | Except.ok sub1 =>
        match verify_rounds tape proof.phase2_msgs f2_num_vars
            (verifier_init f2_num_vars sub1.expected_value) with
        | Except.error e => Except.error e
        | Except.ok (st2f, _v) =>
          match finalize st2f sub1.expected_value with
          | Except.error e => Except.error e
          | Except.ok sub2 =>
            Except.ok ⟨sub1.point, sub2.point, sub2.expected_value⟩

/-- `f1 ≡ 1` on `{0,1}^3`, as the test builds it (all 8 entries = 1). -/
def f1_test : SparseMLE Fr := ⟨3, (List.range 8).map (fun i => (i, 1))⟩

def f2_test : DenseMLE Fr := ⟨1, [2, 3]⟩

def f3_test : DenseMLE Fr := ⟨1, [4, 5]⟩

def g_test : List Fr := [1]

/-- The sparse MLE `{idx 2 ↦ 1}` over 3 variables, C2's failing input. -/
def f1_c2 : SparseMLE Fr := ⟨3, [(2, 1)]⟩

def f3_c2 : DenseMLE Fr := ⟨1, [1, 0]⟩

def g_c2 : List Fr := [0]

/-- Modelled from the spec: the phase-one table the spec prescribes,
`h_g(x) = Σ_y f1_fixed_g(x, y) · f3(y)`, with the `x`-half in the
high-order bits of the flat index (the spec's MSB-first encoding, `x`
being the leading variables), for comparison with `initialize_phase_one`. -/
def hg_spec (f1_fixed_g : SparseMLE F) (f3 : DenseMLE F) (l : ℕ) : List F :=
  (List.range (2 ^ l)).map (fun x =>
    ((List.range (2 ^ l)).map (fun y =>
      ((f1_fixed_g.evaluations.lookup (x * 2 ^ l + y)).getD 0)
        * f3.evaluations.getD y 0)).sum)

theorem bitsToIndex_foldl (bs : List Bool) (acc : ℕ) :
    bs.foldl (fun a b => 2 * a + (if b then 1 else 0)) acc
      = acc * 2 ^ bs.length + bitsToIndex bs := by
  induction bs generalizing acc with
  | nil => simp [bitsToIndex]
  | cons b bs ih =>
    simp only [List.foldl_cons, bitsToIndex, List.length_cons]
    rw [ih, ih (2 * 0 + if b then 1 else 0)]
    ring

theorem bitsToIndex_cons (b : Bool) (bs : List Bool) :
    bitsToIndex (b :: bs) = (if b then 1 else 0) * 2 ^ bs.length + bitsToIndex bs := by
  have h := bitsToIndex_foldl bs (2 * 0 + if b then 1 else 0)
  simpa [bitsToIndex] using h

theorem bitsToIndex_lt (bs : List Bool) : bitsToIndex bs < 2 ^ bs.length := by
  induction bs with
  | nil => simp [bitsToIndex]
  | cons b bs ih =>
    rw [bitsToIndex_cons]
    simp only [List.length_cons, pow_succ]
    cases b <;> simp <;> omega

theorem bitsToIndex_append (xs ys : List Bool) :
    bitsToIndex (xs ++ ys) = bitsToIndex xs * 2 ^ ys.length + bitsToIndex ys := by
  simp only [bitsToIndex, List.foldl_append]
  exact bitsToIndex_foldl ys (bitsToIndex xs)

theorem testBit_mul_pow_add (bv m r : ℕ) (hbv : bv < 2) (hr : r < 2 ^ m) :
    (bv * 2 ^ m + r).testBit m = decide (bv = 1) := by
  have hpos : 0 < 2 ^ m := Nat.pos_pow_of_pos m (by omega)
  rw [Nat.testBit_to_div_mod]
  have h1 : (bv * 2 ^ m + r) / 2 ^ m = bv := by
    rw [mul_comm, Nat.mul_add_div hpos, Nat.div_eq_of_lt hr, add_zero]
  rw [h1, Nat.mod_eq_of_lt hbv]

theorem bitsToIndex_testBit (bs : List Bool) (j : ℕ) (hj : j < bs.length) :
    (bitsToIndex bs).testBit (bs.length - 1 - j) = bs.getD j false := by
  induction bs generalizing j with
  | nil => simp at hj
  | cons b bs ih =>
    rw [bitsToIndex_cons]
    match j with
    | 0 =>
      have hpos : (b :: bs).length - 1 - 0 = bs.length := by simp
      rw [hpos, testBit_mul_pow_add _ _ _ (by cases b <;> simp) (bitsToIndex_lt bs)]
      cases b <;> simp
    | j + 1 =>
      have hj2 : j < bs.length := by simpa using hj
      have hpos : (b :: bs).length - 1 - (j + 1) = bs.length - 1 - j := by
        simp only [List.length_cons]; omega
      have hlt : bs.length - 1 - j < bs.length := by omega
      rw [hpos, List.getD_cons_succ]
      cases b with
      | false => simpa using ih j hj2
      | true =>
        simp only [if_true, one_mul]
        rw [Nat.testBit_two_pow_add_gt hlt]
        exact ih j hj2

theorem bitsToIndex_ofBits (m : ℕ) : ∀ x, x < 2 ^ m →
    bitsToIndex ((List.range m).map (fun j => x.testBit (m - 1 - j))) = x := by
  induction m with
  | zero => intro x hx; interval_cases x; simp [bitsToIndex]
  | succ m ih =>
    intro x hx
    rw [List.range_succ_eq_map, List.map_cons, List.map_map]
    have htail : ((List.range m).map ((fun j => x.testBit (m + 1 - 1 - j)) ∘ Nat.succ))
        = (List.range m).map (fun j => (x % 2 ^ m).testBit (m - 1 - j)) := by
      apply List.map_congr_left
      intro j hj
      rw [List.mem_range] at hj
      have h1 : m + 1 - 1 - Nat.succ j = m - 1 - j := by omega
      have h2 : m - 1 - j < m := by omega
      rw [Function.comp_apply, h1, Nat.testBit_mod_two_pow]
      simp [h2]
    rw [htail, bitsToIndex_cons, ih (x % 2 ^ m) (Nat.mod_lt x (Nat.pos_pow_of_pos m (by omega)))]
    have hlen : ((List.range m).map (fun j => (x % 2 ^ m).testBit (m - 1 - j))).length = m := by
      simp
    rw [hlen]
    have hdivlt : x / 2 ^ m < 2 := by
      rw [Nat.div_lt_iff_lt_mul (Nat.pos_pow_of_pos m (by omega))]
      calc x < 2 ^ (m + 1) := hx
        _ = 2 * 2 ^ m := by ring
        _ ≤ 2 * 2 ^ m := le_refl _
    have hbit : (if x.testBit (m + 1 - 1 - 0) then 1 else 0) = x / 2 ^ m := by
      have h0 : m + 1 - 1 - 0 = m := by omega
      rw [h0, Nat.testBit_to_div_mod]
      have := Nat.mod_eq_of_lt hdivlt
      interval_cases h : x / 2 ^ m <;> simp_all
    rw [hbit, mul_comm]
    exact Nat.div_add_mod x (2 ^ m)

theorem bitsToIndex_inj (bs cs : List Bool) (hlen : bs.length = cs.length)
    (h : bitsToIndex bs = bitsToIndex cs) : bs = cs := by
  apply List.ext_getElem hlen
  intro j hj hj2
  have e1 := bitsToIndex_testBit bs j hj
  have e2 := bitsToIndex_testBit cs j hj2
  rw [List.getD_eq_getElem _ _ hj] at e1
  rw [List.getD_eq_getElem _ _ hj2] at e2
  rw [← e1, ← e2, h, hlen]

/-- The source extracts bits as `(x >> k) & 1`; this is `testBit` as 0/1. -/
theorem shiftRight_and_one (x k : ℕ) :
    x >>> k &&& 1 = if x.testBit k then 1 else 0 := by
  rw [Nat.and_one_is_mod, Nat.shiftRight_eq_div_pow, Nat.testBit_to_div_mod]
  rcases Nat.mod_two_eq_zero_or_one (x / 2 ^ k) with h | h <;> simp [h]

theorem two_mul_or_bit (a b : ℕ) (hb : b < 2) : 2 * a ||| b = 2 * a + b := by
  interval_cases b
  · simp
  · apply Nat.eq_of_testBit_eq
    intro i
    rw [Nat.testBit_lor]
    match i with
    | 0 => simp [Nat.testBit_zero, Nat.mul_add_mod]
    | i + 1 =>
      have h1 : (2 * a) / 2 = a := by omega
      have h2 : (2 * a + 1) / 2 = a := by omega
      rw [Nat.testBit_succ, Nat.testBit_succ, Nat.testBit_succ, h1, h2]
      simp [Nat.div_eq_of_lt]

theorem two_pow_or_of_lt (m x : ℕ) (hx : x < 2 ^ m) : 2 ^ m ||| x = 2 ^ m + x := by
  apply Nat.eq_of_testBit_eq
  intro i
  rw [Nat.testBit_lor]
  rcases lt_trichotomy i m with h | h | h
  · rw [Nat.testBit_two_pow_of_ne (by omega), Nat.testBit_two_pow_add_gt h, Bool.false_or]
  · subst h
    rw [Nat.testBit_two_pow_self, Nat.testBit_two_pow_add_eq,
      Nat.testBit_lt_two_pow hx]
    simp
  · have h1 : 2 ^ m + x < 2 ^ i := by
      calc 2 ^ m + x < 2 ^ m + 2 ^ m := by omega
        _ = 2 ^ (m + 1) := by ring
        _ ≤ 2 ^ i := Nat.pow_le_pow_right (by omega) (by omega)
    rw [Nat.testBit_two_pow_of_ne (by omega), Nat.testBit_lt_two_pow h1,
      Nat.testBit_lt_two_pow (lt_trans hx (Nat.pow_lt_pow_right (by omega) h))]
    simp

theorem boolPattern_length (p : List F) : (boolPattern p).length = p.length := by
  simp [boolPattern]

theorem foldl_or_acc {α : Type} (g : α → ℕ) (l : List α) (acc : ℕ) :
    l.foldl (fun a x => a ||| g x) acc = acc ||| l.foldl (fun a x => a ||| g x) 0 := by
  induction l generalizing acc with
  | nil => simp
  | cons x l ih =>
    simp only [List.foldl_cons]
    rw [ih (acc ||| g x), ih (0 ||| g x), Nat.zero_or, Nat.or_assoc]

theorem pointIndex_fold_or (n : ℕ) (l : List (ℕ × F)) (acc : ℕ) :
    l.foldl (fun (index : ℕ) (ib : ℕ × F) =>
        if ib.2 = 0 then index else index ||| (1 <<< (n - 1 - ib.1))) acc
      = l.foldl (fun (index : ℕ) (ib : ℕ × F) =>
        index ||| (if ib.2 = 0 then 0 else 2 ^ (n - 1 - ib.1))) acc := by
  apply List.foldl_ext
  intro a ib _
  by_cases h : ib.2 = 0 <;> simp [h, Nat.shiftLeft_eq]

theorem pointIndex_shift (n : ℕ) (p : List F) : ∀ (k acc : ℕ),
    (p.enumFrom (k + 1)).foldl
        (fun (index : ℕ) (ib : ℕ × F) =>
          index ||| (if ib.2 = 0 then 0 else 2 ^ (n + 1 - 1 - ib.1))) acc
      = (p.enumFrom k).foldl
        (fun (index : ℕ) (ib : ℕ × F) =>
          index ||| (if ib.2 = 0 then 0 else 2 ^ (n - 1 - ib.1))) acc := by
  induction p with
  | nil => intro k acc; simp
  | cons a p ih =>
    intro k acc
    simp only [List.enumFrom_cons, List.foldl_cons]
    have h1 : n + 1 - 1 - (k + 1) = n - 1 - k := by omega
    rw [h1]
    exact ih (k + 1) _

theorem pointIndex_cons (n : ℕ) (a : F) (p : List F) :
    pointIndex (n + 1) (a :: p) = (if a = 0 then 0 else 2 ^ n) ||| pointIndex n p := by
  unfold pointIndex
  rw [pointIndex_fold_or, pointIndex_fold_or]
  rw [List.enum_cons]
  simp only [List.foldl_cons, Nat.zero_or]
  have h0 : n + 1 - 1 - 0 = n := by omega
  rw [h0, pointIndex_shift]
  rw [foldl_or_acc]
  rw [List.enum_eq_enumFrom]

theorem pointIndex_eq_bitsToIndex (p : List F) : ∀ n, p.length = n →
    pointIndex n p = bitsToIndex (boolPattern p) := by
  induction p with
  | nil => intro n _; simp [pointIndex, bitsToIndex, boolPattern]
  | cons a p ih =>
    intro n hn
    simp only [List.length_cons] at hn
    subst hn
    rw [pointIndex_cons, ih p.length rfl]
    have hcons : boolPattern (a :: p) = decide (a ≠ 0) :: boolPattern p := by
      simp [boolPattern]
    rw [hcons, bitsToIndex_cons, boolPattern_length]
    by_cases h : a = 0
    · simp [h]
    · have hlt : bitsToIndex (boolPattern p) < 2 ^ p.length := by
        have := bitsToIndex_lt (boolPattern p)
        rwa [boolPattern_length] at this
      have hd : decide (a ≠ 0) = true := by simpa using h
      rw [if_neg h, hd, if_pos rfl, one_mul]
      exact two_pow_or_of_lt _ _ hlt

theorem pointIndex_lt (p : List F) (n : ℕ) (h : p.length = n) :
    pointIndex n p < 2 ^ n := by
  rw [pointIndex_eq_bitsToIndex p n h]
  have := bitsToIndex_lt (boolPattern p)
  rwa [boolPattern_length, h] at this

theorem reindex_eq_mod (n fc idx : ℕ) : reindex n fc idx = idx % 2 ^ (n - fc) := by
  unfold reindex
  have hext := List.foldl_ext
    (fun (acc j : ℕ) => acc <<< 1 ||| (idx >>> (n - 1 - (fc + j)) &&& 1))
    (fun (acc j : ℕ) => 2 * acc + (if idx.testBit (n - fc - 1 - j) then 1 else 0))
    0 (l := List.range (n - fc)) ?hstep
  case hstep =>
    intro acc j _
    show acc <<< 1 ||| (idx >>> (n - 1 - (fc + j)) &&& 1)
      = 2 * acc + (if idx.testBit (n - fc - 1 - j) then 1 else 0)
    have hpos : n - 1 - (fc + j) = n - fc - 1 - j := by omega
    rw [hpos, shiftRight_and_one, Nat.shiftLeft_eq, pow_one, mul_comm acc 2]
    exact two_mul_or_bit acc _ (by split <;> omega)
  rw [hext]
  have hmap : (List.range (n - fc)).foldl
      (fun acc j => 2 * acc + (if idx.testBit (n - fc - 1 - j) then 1 else 0)) 0
      = bitsToIndex ((List.range (n - fc)).map (fun j => idx.testBit (n - fc - 1 - j))) := by
    rw [bitsToIndex, List.foldl_map]
  rw [hmap]
  have hbits : (List.range (n - fc)).map (fun j => idx.testBit (n - fc - 1 - j))
      = (List.range (n - fc)).map (fun j => (idx % 2 ^ (n - fc)).testBit (n - fc - 1 - j)) := by
    apply List.map_congr_left
    intro j hj
    rw [List.mem_range] at hj
    rw [Nat.testBit_mod_two_pow]
    have : n - fc - 1 - j < n - fc := by omega
    simp [this]
  rw [hbits]
  exact bitsToIndex_ofBits (n - fc) _ (Nat.mod_lt idx (Nat.pos_pow_of_pos _ (by omega)))

theorem bit_match_iff (b : Bool) (z : Prop) [Decidable z] :
    ((if b then (1 : ℕ) else 0) = (if z then 0 else 1)) ↔ b = decide ¬z := by
  by_cases hz : z <;> cases b <;> simp [hz]

theorem prefixMatch_iff (n : ℕ) (fixed : List F) (idx : ℕ) :
    prefixMatch n fixed idx = true
      ↔ ∀ i < fixed.length, idx.testBit (n - 1 - i) = decide (fixed.getD i 0 ≠ 0) := by
  unfold prefixMatch
  rw [List.all_eq_true]
  constructor
  · intro h i hi
    have h2 := h i (List.mem_range.mpr hi)
    rw [beq_iff_eq, shiftRight_and_one, bit_match_iff] at h2
    exact h2
  · intro h i hi
    rw [List.mem_range] at hi
    rw [beq_iff_eq, shiftRight_and_one, bit_match_iff]
    exact h i hi

theorem boolPattern_getD (p : List F) (i : ℕ) (hi : i < p.length) :
    (boolPattern p).getD i false = decide (p.getD i 0 ≠ 0) := by
  have hi2 : i < (boolPattern p).length := by rwa [boolPattern_length]
  rw [List.getD_eq_getElem _ _ hi2, List.getD_eq_getElem _ _ hi]
  simp [boolPattern]

theorem boolPattern_getElem (p : List F) (j : ℕ) (hj : j < (boolPattern p).length) :
    (boolPattern p)[j] = decide (p.getD j 0 ≠ 0) := by
  have hj2 : j < p.length := by rwa [boolPattern_length] at hj
  simp only [boolPattern, List.getElem_map]
  rw [List.getD_eq_getElem _ _ hj2]

theorem to_dense_evaluate (f : SparseMLE F) (p : List F) (hp : p.length = f.num_vars) :
    f.to_dense_multilinear_extension.evaluate p
      = some ((f.evaluations.lookup (pointIndex f.num_vars p)).getD 0) := by
  unfold SparseMLE.to_dense_multilinear_extension DenseMLE.evaluate
  simp only
  rw [if_pos hp]
  have hlt : pointIndex f.num_vars p < 2 ^ f.num_vars := pointIndex_lt p _ hp
  rw [List.getElem?_map, List.getElem?_range hlt]
  rfl

/-- Key index correspondence behind the fix-then-evaluate law: an index
`idx < 2^n` survives the prefix filter with re-index equal to the suffix
index exactly when it is the full point's flat index. -/
theorem fix_index_correspondence (p s : List F) (n : ℕ)
    (hp : p.length ≤ n) (hs : s.length = n - p.length) (idx : ℕ) (hidx : idx < 2 ^ n) :
    (prefixMatch n p idx = true
        ∧ reindex n p.length idx = pointIndex (n - p.length) s)
      ↔ idx = pointIndex n (p ++ s) := by
  have hlen : (p ++ s).length = n := by simp [hs]; omega
  have hbp : (boolPattern (p ++ s)).length = n := by rw [boolPattern_length]; exact hlen
  have happ : boolPattern (p ++ s) = boolPattern p ++ boolPattern s := by
    simp [boolPattern]
  have hI : pointIndex n (p ++ s) = bitsToIndex (boolPattern (p ++ s)) :=
    pointIndex_eq_bitsToIndex _ n hlen
  have hIs : pointIndex (n - p.length) s = bitsToIndex (boolPattern s) :=
    pointIndex_eq_bitsToIndex _ _ hs
  have hslen : (boolPattern s).length = n - p.length := by rw [boolPattern_length]; exact hs
  have hplen : (boolPattern p).length = p.length := boolPattern_length p
  have hslen2 : s.length = n - p.length := hs
  constructor
  · rintro ⟨hm, hr⟩
    have hexp := bitsToIndex_ofBits n idx hidx
    rw [hI, ← hexp]
    congr 1
    apply List.ext_getElem
    · simp [hbp]
    intro j hj hj2
    have hjn : j < n := by simpa using hj
    rw [List.getElem_map, List.getElem_range, boolPattern_getElem _ _ hj2]
    by_cases hcase : j < p.length
    · have hpm := (prefixMatch_iff n p idx).mp hm j hcase
      rw [List.getD_append _ _ _ _ hcase]
      exact hpm
    · have hge : p.length ≤ j := le_of_not_lt hcase
      rw [List.getD_append_right _ _ _ _ hge]
      have hmod := reindex_eq_mod n p.length idx
      rw [hmod] at hr
      have hlt2 : n - 1 - j < n - p.length := by omega
      have hbit : idx.testBit (n - 1 - j) = (idx % 2 ^ (n - p.length)).testBit (n - 1 - j) := by
        rw [Nat.testBit_mod_two_pow]
        simp [hlt2]
      have hjs : j - p.length < (boolPattern s).length := by rw [hslen]; omega
      have hbt := bitsToIndex_testBit (boolPattern s) (j - p.length) hjs
      have hposs : (boolPattern s).length - 1 - (j - p.length) = n - 1 - j := by
        rw [hslen]; omega
      rw [hposs] at hbt
      have hjs2 : j - p.length < s.length := by omega
      rw [hbit, hr, hIs, hbt, List.getD_eq_getElem _ _ hjs,
        boolPattern_getElem s _ hjs]
  · intro h
    subst h
    constructor
    · rw [prefixMatch_iff]
      intro i hi
      have hin : i < n := by omega
      have hbt := bitsToIndex_testBit (boolPattern (p ++ s)) i (by rwa [hbp])
      rw [hbp] at hbt
      rw [hI, hbt]
      have hi2 : i < (boolPattern (p ++ s)).length := by rw [hbp]; exact hin
      rw [List.getD_eq_getElem _ _ hi2, boolPattern_getElem _ _ hi2,
        List.getD_append _ _ _ _ hi]
    · rw [reindex_eq_mod, hI, happ, bitsToIndex_append, hslen, hIs]
      rw [mul_comm, Nat.mul_add_mod]
      exact Nat.mod_eq_of_lt (by rw [← hslen]; exact bitsToIndex_lt _)

/-- Lookup transfer through `fix_variables`' filterMap, given the index
correspondence. -/
theorem lookup_filterMap_fixed (n fc I Is : ℕ) (p : List F)
    (hkey : ∀ idx, idx < 2 ^ n →
      ((prefixMatch n p idx = true ∧ reindex n fc idx = Is) ↔ idx = I)) :
    ∀ L : List (ℕ × F), (∀ e ∈ L, e.1 < 2 ^ n) →
      (L.filterMap (fun iv =>
          if prefixMatch n p iv.1 then some (reindex n fc iv.1, iv.2) else none)).lookup Is
        = L.lookup I := by
  intro L hL
  induction L with
  | nil => rfl
  | cons e L ih =>
    have he : e.1 < 2 ^ n := hL e (List.mem_cons_self e L)
    have hrest : ∀ x ∈ L, x.1 < 2 ^ n := fun x hx => hL x (List.mem_cons_of_mem _ hx)
    rw [List.filterMap_cons]
    by_cases hidx : e.1 = I
    · have h := (hkey e.1 he).mpr hidx
      rw [if_pos h.1]
      rw [List.lookup_cons, List.lookup_cons]
      have h1 : (Is == reindex n fc e.1) = true := by rw [h.2]; exact beq_self_eq_true Is
      have h2 : (I == e.1) = true := by rw [hidx]; exact beq_self_eq_true I
      rw [h1, h2]
    · by_cases hm : prefixMatch n p e.1
      · have hre : reindex n fc e.1 ≠ Is := fun hre => hidx ((hkey e.1 he).mp ⟨hm, hre⟩)
        rw [if_pos hm, List.lookup_cons, List.lookup_cons]
        have h1 : (Is == reindex n fc e.1) = false := by
          rw [beq_eq_false_iff_ne]; exact fun h => hre h.symm
        have h2 : (I == e.1) = false := by
          rw [beq_eq_false_iff_ne]; exact fun h => hidx h.symm
        rw [h1, h2]
        exact ih hrest
      · rw [if_neg hm, List.lookup_cons]
        have h2 : (I == e.1) = false := by
          rw [beq_eq_false_iff_ne]; exact fun h => hidx h.symm
        rw [h2]
        exact ih hrest

/-- C8: fix-then-evaluate law.  For a sparse MLE `f` (indices in range, as
the spec's data model requires), a Boolean prefix `p` of at most `num_vars`
coordinates and a Boolean suffix `s` for the remaining variables, evaluating
the dense materialization of `fix_variables f p` at `s` equals evaluating
the dense materialization of `f` at `p ++ s`. -/
theorem C8_fix_then_evaluate (f : SparseMLE F) (p s : List F)
    (hsupp : ∀ e ∈ f.evaluations, e.1 < 2 ^ f.num_vars)
    (hp : p.length ≤ f.num_vars)
    (hs : s.length = f.num_vars - p.length)
    (hbp : ∀ a ∈ p, a = 0 ∨ a = 1)
    (hbs : ∀ a ∈ s, a = 0 ∨ a = 1) :
    ((f.fix_variables p).to_dense_multilinear_extension).evaluate s
      = (f.to_dense_multilinear_extension).evaluate (p ++ s) := by
  have h1 := to_dense_evaluate (f.fix_variables p) s hs
  have h2 := to_dense_evaluate f (p ++ s) (by simp [hs]; omega)
  rw [h1, h2]
  simp only [SparseMLE.fix_variables]
  rw [lookup_filterMap_fixed f.num_vars p.length (pointIndex f.num_vars (p ++ s))
        (pointIndex (f.num_vars - p.length) s) p
        (fun idx hidx => fix_index_correspondence p s f.num_vars hp hs idx hidx)
        f.evaluations hsupp]

/-- C8 witness: a concrete sparse MLE over ℤ with prefix `[0]`, suffix `[1]`. -/
theorem C8_witness :
    (((⟨2, [(1, 3), (2, 5)]⟩ : SparseMLE ℤ).fix_variables
        [0]).to_dense_multilinear_extension).evaluate [1]
      = ((⟨2, [(1, 3), (2, 5)]⟩ : SparseMLE ℤ).to_dense_multilinear_extension).evaluate
          ([0] ++ [1]) :=
  C8_fix_then_evaluate ⟨2, [(1, 3), (2, 5)]⟩ [0] [1]
    (by decide) (by decide) (by decide) (by decide) (by decide)

/-- C9: sparse/dense equivalence.  Evaluating the dense materialization of a
sparse MLE at a Boolean point of full length gives the sparse map's value at
the corresponding MSB-first flat index, and 0 when the index is absent
(`lookup` returns `none` and `getD` supplies 0). -/
theorem C9_sparse_dense_equivalence (f : SparseMLE F) (point : List F)
    (hlen : point.length = f.num_vars) (hb : ∀ a ∈ point, a = 0 ∨ a = 1) :
    (f.to_dense_multilinear_extension).evaluate point
      = some ((f.evaluations.lookup (bitsToIndex (boolPattern point))).getD 0) := by
  rw [to_dense_evaluate f point hlen, pointIndex_eq_bitsToIndex point f.num_vars hlen]

/-- C9 witness: a one-variable sparse MLE over ℤ, point `[1]` (index 1 absent,
so the result is 0; index 0 holds 7). -/
theorem C9_witness :
    ((⟨1, [(0, 7)]⟩ : SparseMLE ℤ).to_dense_multilinear_extension).evaluate [1]
      = some ((([(0, 7)] : List (ℕ × ℤ)).lookup
          (bitsToIndex (boolPattern ([1] : List ℤ)))).getD 0) :=
  C9_sparse_dense_equivalence ⟨1, [(0, 7)]⟩ [1] (by decide) (by decide)

/-- C10: `DenseMLE::evaluate` at a full-length point (arbitrary field
coordinates) returns the stored entry at the MSB-first flat index built from
the zero/non-zero pattern; that index is always within `2^num_vars` (so with
the length invariant the lookup cannot fail), and the result depends only on
the zero/non-zero pattern of the point. -/
theorem C10_dense_evaluate_boolean_index (d : DenseMLE F)
    (hinv : d.evaluations.length = 2 ^ d.num_vars)
    (point : List F) (hlen : point.length = d.num_vars) :
    bitsToIndex (boolPattern point) < 2 ^ d.num_vars
    ∧ d.evaluate point = some (d.evaluations.getD (bitsToIndex (boolPattern point)) 0)
    ∧ ∀ q : List F, q.length = d.num_vars → boolPattern q = boolPattern point →
        d.evaluate q = d.evaluate point := by
  have hbits : bitsToIndex (boolPattern point) < 2 ^ d.num_vars := by
    have := bitsToIndex_lt (boolPattern point)
    rwa [boolPattern_length, hlen] at this
  have hpi : pointIndex d.num_vars point = bitsToIndex (boolPattern point) :=
    pointIndex_eq_bitsToIndex point _ hlen
  refine ⟨hbits, ?_, ?_⟩
  · unfold DenseMLE.evaluate
    rw [if_pos hlen, hpi]
    have hlt : bitsToIndex (boolPattern point) < d.evaluations.length := by omega
    rw [List.getElem?_eq_getElem hlt, List.getD_eq_getElem _ _ hlt]
  · intro q hq hpat
    unfold DenseMLE.evaluate
    rw [if_pos hq, if_pos hlen]
    rw [pointIndex_eq_bitsToIndex q _ hq, pointIndex_eq_bitsToIndex point _ hlen, hpat]

/-- C10 witness: a concrete dense MLE over ℤ at point `[1]`. -/
theorem C10_witness :
    bitsToIndex (boolPattern ([1] : List ℤ)) < 2 ^ (1 : ℕ)
    ∧ (⟨1, [4, 6]⟩ : DenseMLE ℤ).evaluate [1]
        = some (([4, 6] : List ℤ).getD (bitsToIndex (boolPattern ([1] : List ℤ))) 0)
    ∧ ∀ q : List ℤ, q.length = 1 → boolPattern q = boolPattern ([1] : List ℤ) →
        (⟨1, [4, 6]⟩ : DenseMLE ℤ).evaluate q = (⟨1, [4, 6]⟩ : DenseMLE ℤ).evaluate [1] :=
  C10_dense_evaluate_boolean_index ⟨1, [4, 6]⟩ (by decide) [1] (by decide)

theorem ueval_nil (x : F) : ueval [] x = 0 := rfl

theorem ueval_cons (a : F) (t : List F) (x : F) :
    ueval (a :: t) x = a + x * ueval t x := rfl

theorem uadd_aux_eval (p q : List F) (x : F) :
    ueval (uadd_aux p q) x = ueval p x + ueval q x := by
  induction p generalizing q with
  | nil => simp [uadd_aux, ueval_nil]
  | cons a p ih =>
    cases q with
    | nil => simp [uadd_aux, ueval_nil]
    | cons b q =>
      simp only [uadd_aux, ueval_cons]
      rw [ih]
      ring

theorem utrim_nil_eval (p : List F) (h : utrim p = []) (x : F) : ueval p x = 0 := by
  induction p with
  | nil => rfl
  | cons a t ih =>
    rw [utrim] at h
    cases ht : utrim t with
    | nil =>
      rw [ht] at h
      by_cases ha : a = 0
      · rw [ueval_cons, ih ht, ha]; ring
      · rw [if_neg ha] at h; simp at h
    | cons b t2 => rw [ht] at h; simp at h

theorem ueval_utrim (p : List F) (x : F) : ueval (utrim p) x = ueval p x := by
  induction p with
  | nil => rfl
  | cons a t ih =>
    rw [utrim]
    cases ht : utrim t with
    | nil =>
      have h0 : ueval t x = 0 := utrim_nil_eval t ht x
      by_cases ha : a = 0
      · simp [ha, ueval_nil, ueval_cons, h0]
      · simp [ha, ueval_cons, ueval_nil, h0]
    | cons b t2 =>
      rw [ht] at ih
      rw [ueval_cons] at ih
      rw [ueval_cons, ueval_cons, ih, ueval_cons]

theorem ueval_uadd (p q : List F) (x : F) :
    ueval (uadd p q) x = ueval p x + ueval q x := by
  rw [uadd, ueval_utrim, uadd_aux_eval]

theorem uadd_aux_length (p q : List F) :
    (uadd_aux p q).length = max p.length q.length := by
  induction p generalizing q with
  | nil => simp [uadd_aux]
  | cons a p ih =>
    cases q with
    | nil => simp [uadd_aux]
    | cons b q => simp [uadd_aux, ih]; omega

theorem utrim_length_le (p : List F) : (utrim p).length ≤ p.length := by
  induction p with
  | nil => simp [utrim]
  | cons a t ih =>
    rw [utrim]
    cases ht : utrim t with
    | nil => by_cases ha : a = 0 <;> simp [ha]
    | cons b t2 =>
      rw [ht] at ih
      simp only [List.length_cons] at ih ⊢
      omega

theorem udegree_uadd_le (p q : List F) :
    udegree (uadd p q) ≤ max (udegree p) (udegree q) := by
  have h1 := utrim_length_le (uadd_aux p q)
  have h2 := uadd_aux_length p q
  unfold udegree uadd
  omega

theorem ueval_replicate_zero_append (d : ℕ) (c x : F) :
    ueval (List.replicate d 0 ++ [c]) x = c * x ^ d := by
  induction d with
  | zero => simp [ueval_cons, ueval_nil]
  | succ d ih =>
    rw [List.replicate_succ, List.cons_append, ueval_cons, ih]
    ring

theorem ueval_umonomial (d : ℕ) (c x : F) : ueval (umonomial d c) x = c * x ^ d := by
  unfold umonomial
  by_cases hc : c = 0
  · simp [hc, ueval_nil]
  · rw [if_neg hc, ueval_replicate_zero_append]

theorem udegree_umonomial_le (d : ℕ) (c : F) : udegree (umonomial d c) ≤ d := by
  unfold umonomial udegree
  split <;> simp

theorem ueval_foldl_uadd {α : Type} (l : List α) (k : α → List F) (init : List F) (x : F) :
    ueval (l.foldl (fun s a => uadd s (k a)) init) x
      = ueval init x + (l.map (fun a => ueval (k a) x)).sum := by
  induction l generalizing init with
  | nil => simp
  | cons a l ih =>
    simp only [List.foldl_cons, List.map_cons, List.sum_cons]
    rw [ih, ueval_uadd]
    ring

theorem ueval_foldl_uadd_flip {α : Type} (l : List α) (k : α → List F) (init : List F) (x : F) :
    ueval (l.foldl (fun s a => uadd (k a) s) init) x
      = ueval init x + (l.map (fun a => ueval (k a) x)).sum := by
  induction l generalizing init with
  | nil => simp
  | cons a l ih =>
    simp only [List.foldl_cons, List.map_cons, List.sum_cons]
    rw [ih, ueval_uadd]
    ring

theorem udegree_foldl_uadd_le {α : Type} (l : List α) (k : α → List F) (init : List F)
    (D : ℕ) (hinit : udegree init ≤ D) (h : ∀ a ∈ l, udegree (k a) ≤ D) :
    udegree (l.foldl (fun s a => uadd s (k a)) init) ≤ D := by
  induction l generalizing init with
  | nil => exact hinit
  | cons a l ih =>
    simp only [List.foldl_cons]
    apply ih
    · calc udegree (uadd init (k a)) ≤ max (udegree init) (udegree (k a)) :=
            udegree_uadd_le _ _
        _ ≤ D := by
            have := h a (List.mem_cons_self a l)
            omega
    · exact fun b hb => h b (List.mem_cons_of_mem _ hb)

theorem udegree_foldl_uadd_flip_le {α : Type} (l : List α) (k : α → List F) (init : List F)
    (D : ℕ) (hinit : udegree init ≤ D) (h : ∀ a ∈ l, udegree (k a) ≤ D) :
    udegree (l.foldl (fun s a => uadd (k a) s) init) ≤ D := by
  induction l generalizing init with
  | nil => exact hinit
  | cons a l ih =>
    simp only [List.foldl_cons]
    apply ih
    · calc udegree (uadd (k a) init) ≤ max (udegree (k a)) (udegree init) :=
            udegree_uadd_le _ _
        _ ≤ D := by
            have := h a (List.mem_cons_self a l)
            omega
    · exact fun b hb => h b (List.mem_cons_of_mem _ hb)

theorem n_to_vec_succ (i m : ℕ) :
    n_to_vec (F := F) i (m + 1)
      = (if i.testBit m then (1 : F) else 0) :: n_to_vec i m := by
  unfold n_to_vec
  rw [List.range_succ_eq_map]
  simp only [List.map_cons, List.map_map]
  have h0 : m + 1 - 1 - 0 = m := by omega
  rw [h0]
  congr 1
  apply List.map_congr_left
  intro j hj
  rw [List.mem_range] at hj
  have h1 : m + 1 - 1 - Nat.succ j = m - 1 - j := by omega
  have h2 : m - (j + 1) = m - 1 - j := by omega
  simp [Function.comp, h1, h2]

theorem sum_hypercube (m : ℕ) (f : List F → F) :
    ((List.range (2 ^ m)).map (fun n => f (n_to_vec n m))).sum = sumHyp m f := by
  induction m generalizing f with
  | zero =>
    rw [pow_zero]
    simp [List.range_succ, n_to_vec, sumHyp]
  | succ m ih =>
    have hsplit : 2 ^ (m + 1) = 2 ^ m + 2 ^ m := by ring
    rw [hsplit, List.range_add, List.map_append, List.sum_append, List.map_map]
    have h1 : (List.range (2 ^ m)).map (fun n => f (n_to_vec n (m + 1)))
        = (List.range (2 ^ m)).map (fun n => f (0 :: n_to_vec n m)) := by
      apply List.map_congr_left
      intro n hn
      rw [List.mem_range] at hn
      rw [n_to_vec_succ, Nat.testBit_lt_two_pow hn]
      simp
    have h2 : (List.range (2 ^ m)).map ((fun n => f (n_to_vec n (m + 1))) ∘ (2 ^ m + ·))
        = (List.range (2 ^ m)).map (fun n => f (1 :: n_to_vec n m)) := by
      apply List.map_congr_left
      intro n hn
      rw [List.mem_range] at hn
      simp only [Function.comp_apply]
      rw [n_to_vec_succ]
      have hbit : (2 ^ m + n).testBit m = true := by
        rw [Nat.testBit_two_pow_add_eq, Nat.testBit_lt_two_pow hn]
        rfl
      rw [hbit]
      have htail : n_to_vec (F := F) (2 ^ m + n) m = n_to_vec n m := by
        unfold n_to_vec
        apply List.map_congr_left
        intro j hj
        rw [List.mem_range] at hj
        rw [Nat.testBit_two_pow_add_gt (by omega)]
      rw [htail]
      simp
    have e1 : ((List.range (2 ^ m)).map (fun n => f (0 :: n_to_vec n m))).sum
        = sumHyp m (fun b => f (0 :: b)) := ih (fun b => f (0 :: b))
    have e2 : ((List.range (2 ^ m)).map (fun n => f (1 :: n_to_vec n m))).sum
        = sumHyp m (fun b => f (1 :: b)) := ih (fun b => f (1 :: b))
    rw [h1, h2, e1, e2]
    rfl

theorem evaluate_term_go (r_vec points : List F) (t : F) :
    ∀ (entries : List (ℕ × ℕ)) (acc : F × Option ℕ),
      (entries.map Prod.fst).Nodup →
      (r_vec.length ∉ entries.map Prod.fst ∨ acc.2 = none) →
      (entries.foldl (evaluate_term_step r_vec points) acc).1
          * t ^ ((entries.foldl (evaluate_term_step r_vec points) acc).2.getD 0)
        = acc.1 * t ^ (acc.2.getD 0)
            * (entries.map (fun vp => scValue r_vec t points vp.1 ^ vp.2)).prod := by
  intro entries
  induction entries with
  | nil =>
    intro acc _ _
    simp
  | cons vp rest ih =>
    intro acc hnd hdisj
    simp only [List.map_cons, List.nodup_cons] at hnd
    simp only [List.foldl_cons, List.map_cons, List.prod_cons]
    by_cases hv : vp.1 = r_vec.length
    · have hstep : evaluate_term_step r_vec points acc vp = (acc.1, some vp.2) := by
        unfold evaluate_term_step
        rw [if_pos hv]
      have hacc : acc.2 = none := by
        rcases hdisj with h | h
        · exfalso
          rw [List.map_cons] at h
          exact h (by rw [← hv]; exact List.mem_cons_self _ _)
        · exact h
      have hnotin : r_vec.length ∉ rest.map Prod.fst := hv ▸ hnd.1
      rw [hstep, ih (acc.1, some vp.2) hnd.2 (Or.inl hnotin)]
      have hval : scValue r_vec t points vp.1 = t := by
        unfold scValue
        rw [hv]
        simp
      rw [hval, hacc]
      simp only [Option.getD_some, Option.getD_none, pow_zero]
      ring
    · have hstep : evaluate_term_step r_vec points acc vp
          = (scValue r_vec t points vp.1 ^ vp.2 * acc.1, acc.2) := by
        unfold evaluate_term_step scValue
        rw [if_neg hv]
        by_cases hlt : vp.1 < r_vec.length
        · rw [if_pos hlt, if_pos hlt]
        · rw [if_neg hlt, if_neg hlt, if_neg hv]
      have hdisj2 : r_vec.length ∉ rest.map Prod.fst ∨ acc.2 = none := by
        rcases hdisj with h | h
        · exact Or.inl (fun hm => h (by rw [List.map_cons]; exact List.mem_cons_of_mem _ hm))
        · exact Or.inr h
      rw [hstep, ih (scValue r_vec t points vp.1 ^ vp.2 * acc.1, acc.2) hnd.2 hdisj2]
      simp only
      ring

theorem evaluate_term_spec (r_vec points : List F) (t : F) (entries : List (ℕ × ℕ))
    (hnd : (entries.map Prod.fst).Nodup) :
    (evaluate_term r_vec points entries).1
        * t ^ ((evaluate_term r_vec points entries).2.getD 0)
      = (entries.map (fun vp => scValue r_vec t points vp.1 ^ vp.2)).prod := by
  have h := evaluate_term_go r_vec points t entries (1, none) hnd (Or.inr rfl)
  simpa [evaluate_term] using h

theorem scValue_eq_getD (r_vec : List F) (t : F) (points : List F) (var : ℕ) :
    scValue r_vec t points var = (r_vec ++ t :: points.drop 1).getD var 0 := by
  unfold scValue
  rcases lt_trichotomy var r_vec.length with h | h | h
  · rw [if_pos h, List.getD_append _ _ _ _ h]
  · subst h
    rw [if_neg (lt_irrefl _), if_pos rfl,
      List.getD_append_right _ _ _ _ (le_refl _), Nat.sub_self, List.getD_cons_zero]
  · rw [if_neg (by omega), if_neg (by omega),
      List.getD_append_right _ _ _ _ (by omega)]
    have hsub : var - r_vec.length = (var - r_vec.length - 1) + 1 := by omega
    conv_rhs => rw [hsub]
    rw [List.getD_cons_succ]
    rw [List.getD_eq_getElem?_getD, List.getD_eq_getElem?_getD, List.getElem?_drop]
    have hidx : 1 + (var - r_vec.length - 1) = var - r_vec.length := by omega
    rw [hidx]

theorem evaluate_gj_eval (g : MultiPoly F) (r_vec points : List F) (t : F)
    (hg : ∀ ct ∈ g.terms, (ct.2.map Prod.fst).Nodup) :
    ueval (evaluate_gj g r_vec points) t
      = g.evaluate (r_vec ++ t :: points.drop 1) := by
  unfold evaluate_gj MultiPoly.evaluate
  rw [ueval_foldl_uadd_flip, ueval_nil, zero_add]
  congr 1
  apply List.map_congr_left
  intro ct hct
  rw [ueval_umonomial]
  have hspec := evaluate_term_spec r_vec points t ct.2 (hg ct hct)
  calc ct.1 * (evaluate_term r_vec points ct.2).1
        * t ^ ((evaluate_term r_vec points ct.2).2.getD 0)
      = ct.1 * ((evaluate_term r_vec points ct.2).1
          * t ^ ((evaluate_term r_vec points ct.2).2.getD 0)) := by ring
    _ = ct.1 * (ct.2.map (fun vp => scValue r_vec t points vp.1 ^ vp.2)).prod := by
        rw [hspec]
    _ = ct.1 * term_evaluate (r_vec ++ t :: points.drop 1) ct.2 := by
        unfold term_evaluate
        congr 1
        congr 1
        apply List.map_congr_left
        intro vp _
        rw [scValue_eq_getD]

theorem gen_uni_polynomial_eval (g : MultiPoly F) (r_vec : List F) (t : F)
    (hg : ∀ ct ∈ g.terms, (ct.2.map Prod.fst).Nodup)
    (hk : r_vec.length < g.num_vars) :
    ueval (gen_uni_polynomial g r_vec) t
      = sumHyp (g.num_vars - r_vec.length - 1) (fun b => g.evaluate (r_vec ++ t :: b)) := by
  unfold gen_uni_polynomial
  rw [ueval_foldl_uadd]
  have hinit : ueval (umonomial 0 (0 : F)) t = 0 := by
    simp [umonomial, ueval_nil]
  rw [hinit, zero_add]
  have hv1 : g.num_vars - r_vec.length - 1 + 1 = g.num_vars - r_vec.length := by omega
  have hmap : (List.range (2 ^ (g.num_vars - r_vec.length - 1))).map
        (fun n => ueval (evaluate_gj g r_vec (n_to_vec n (g.num_vars - r_vec.length))) t)
      = (List.range (2 ^ (g.num_vars - r_vec.length - 1))).map
        (fun n => (fun b => g.evaluate (r_vec ++ t :: b))
          (n_to_vec n (g.num_vars - r_vec.length - 1))) := by
    apply List.map_congr_left
    intro n hn
    rw [evaluate_gj_eval g r_vec _ t hg]
    have hdrop : (n_to_vec (F := F) n (g.num_vars - r_vec.length)).drop 1
        = n_to_vec n (g.num_vars - r_vec.length - 1) := by
      conv_lhs => rw [← hv1]
      rw [n_to_vec_succ, List.drop_one, List.tail_cons]
    rw [hdrop]
  rw [hmap]
  exact sum_hypercube (g.num_vars - r_vec.length - 1) (fun b => g.evaluate (r_vec ++ t :: b))

theorem round_first (g : MultiPoly F)
    (hg : ∀ ct ∈ g.terms, (ct.2.map Prod.fst).Nodup) (h0 : 0 < g.num_vars) :
    ueval (gen_uni_polynomial g []) 0 + ueval (gen_uni_polynomial g []) 1
      = slow_sum_g g := by
  rw [gen_uni_polynomial_eval g [] 0 hg (by simpa using h0),
    gen_uni_polynomial_eval g [] 1 hg (by simpa using h0)]
  unfold slow_sum_g
  rw [sum_hypercube]
  simp only [List.length_nil, Nat.sub_zero, List.nil_append]
  have hv1 : g.num_vars - 1 + 1 = g.num_vars := by omega
  conv_rhs => rw [← hv1]
  rfl

theorem round_middle (g : MultiPoly F)
    (hg : ∀ ct ∈ g.terms, (ct.2.map Prod.fst).Nodup)
    (r_vec : List F) (r : F) (h : r_vec.length + 2 ≤ g.num_vars) :
    ueval (gen_uni_polynomial g (r_vec ++ [r])) 0
        + ueval (gen_uni_polynomial g (r_vec ++ [r])) 1
      = ueval (gen_uni_polynomial g r_vec) r := by
  rw [gen_uni_polynomial_eval g (r_vec ++ [r]) 0 hg (by simp; omega),
    gen_uni_polynomial_eval g (r_vec ++ [r]) 1 hg (by simp; omega),
    gen_uni_polynomial_eval g r_vec r hg (by omega)]
  have hlen : (r_vec ++ [r]).length = r_vec.length + 1 := by simp
  rw [hlen]
  have hm1 : g.num_vars - r_vec.length - 1
      = (g.num_vars - (r_vec.length + 1) - 1) + 1 := by omega
  rw [hm1]
  have key : ∀ u : F, (fun b => g.evaluate ((r_vec ++ [r]) ++ u :: b))
      = (fun b => (fun z => g.evaluate (r_vec ++ r :: z)) (u :: b)) := by
    intro u
    funext b
    rw [List.append_assoc]
    rfl
  rw [key 0, key 1]
  rfl

theorem round_final (g : MultiPoly F)
    (hg : ∀ ct ∈ g.terms, (ct.2.map Prod.fst).Nodup)
    (r_vec : List F) (r : F) (h : r_vec.length + 1 = g.num_vars) :
    ueval (gen_uni_polynomial g r_vec) r = g.evaluate (r_vec ++ [r]) := by
  rw [gen_uni_polynomial_eval g r_vec r hg (by omega)]
  have h0 : g.num_vars - r_vec.length - 1 = 0 := by omega
  rw [h0]
  rfl

theorem max_degrees_step_length (lk : List ℕ) (vp : ℕ × ℕ) :
    (max_degrees_step lk vp).length = lk.length := by
  unfold max_degrees_step
  split <;> simp

theorem max_degrees_step_mono (lk : List ℕ) (vp : ℕ × ℕ) (j : ℕ) :
    lk.getD j 0 ≤ (max_degrees_step lk vp).getD j 0 := by
  unfold max_degrees_step
  by_cases hc : lk.getD vp.1 0 < vp.2
  · rw [if_pos hc]
    by_cases hj : vp.1 = j
    · subst hj
      by_cases hlen : vp.1 < lk.length
      · have h1 : (lk.set vp.1 vp.2).getD vp.1 0 = vp.2 := by
          rw [List.getD_eq_getElem _ _ (by simpa using hlen), List.getElem_set_self]
        rw [h1]
        omega
      · rw [List.set_eq_of_length_le (le_of_not_lt hlen)]
    · rw [List.getD_eq_getElem?_getD, List.getD_eq_getElem?_getD,
        List.getElem?_set_ne hj]
  · rw [if_neg hc]

theorem max_degrees_inner_length (entries : List (ℕ × ℕ)) :
    ∀ lk : List ℕ, (entries.foldl max_degrees_step lk).length = lk.length := by
  induction entries with
  | nil => intro lk; rfl
  | cons vp rest ih =>
    intro lk
    rw [List.foldl_cons, ih, max_degrees_step_length]

theorem max_degrees_inner_mono (entries : List (ℕ × ℕ)) :
    ∀ (lk : List ℕ) (j : ℕ), lk.getD j 0 ≤ (entries.foldl max_degrees_step lk).getD j 0 := by
  induction entries with
  | nil => intro lk j; exact le_refl _
  | cons vp rest ih =>
    intro lk j
    rw [List.foldl_cons]
    exact le_trans (max_degrees_step_mono lk vp j) (ih _ j)

theorem max_degrees_inner_bound (entries : List (ℕ × ℕ)) :
    ∀ lk : List ℕ, (∀ vp ∈ entries, vp.1 < lk.length) →
      ∀ vp ∈ entries, vp.2 ≤ (entries.foldl max_degrees_step lk).getD vp.1 0 := by
  induction entries with
  | nil => intro lk _ vp hvp; simp at hvp
  | cons e rest ih =>
    intro lk hlen vp hvp
    rw [List.foldl_cons]
    rcases List.mem_cons.mp hvp with h | h
    · subst h
      have hb : vp.2 ≤ (max_degrees_step lk vp).getD vp.1 0 := by
        unfold max_degrees_step
        by_cases hc : lk.getD vp.1 0 < vp.2
        · rw [if_pos hc]
          have hlt : vp.1 < lk.length := hlen vp (List.mem_cons_self _ _)
          have h1 : (lk.set vp.1 vp.2).getD vp.1 0 = vp.2 := by
            rw [List.getD_eq_getElem _ _ (by simpa using hlt), List.getElem_set_self]
          rw [h1]
        · rw [if_neg hc]
          omega
      exact le_trans hb (max_degrees_inner_mono rest _ vp.1)
    · exact ih (max_degrees_step lk e)
        (fun w hw => by rw [max_degrees_step_length]; exact hlen w (List.mem_cons_of_mem _ hw))
        vp h

theorem max_degrees_outer_mono (ts : List (F × List (ℕ × ℕ))) :
    ∀ (lk : List ℕ) (j : ℕ), lk.getD j 0 ≤ (ts.foldl max_degrees_outer lk).getD j 0 := by
  induction ts with
  | nil => intro lk j; exact le_refl _
  | cons ct rest ih =>
    intro lk j
    rw [List.foldl_cons]
    exact le_trans (max_degrees_inner_mono ct.2 lk j) (ih _ j)

theorem max_degrees_outer_length (ts : List (F × List (ℕ × ℕ))) :
    ∀ lk : List ℕ, (ts.foldl max_degrees_outer lk).length = lk.length := by
  induction ts with
  | nil => intro lk; rfl
  | cons ct rest ih =>
    intro lk
    rw [List.foldl_cons, ih]
    exact max_degrees_inner_length ct.2 lk

theorem max_degrees_outer_bound (ts : List (F × List (ℕ × ℕ))) :
    ∀ lk : List ℕ, (∀ ct ∈ ts, ∀ vp ∈ ct.2, vp.1 < lk.length) →
      ∀ ct ∈ ts, ∀ vp ∈ ct.2, vp.2 ≤ (ts.foldl max_degrees_outer lk).getD vp.1 0 := by
  induction ts with
  | nil => intro lk _ ct hct; simp at hct
  | cons c rest ih =>
    intro lk hlen ct hct vp hvp
    rw [List.foldl_cons]
    rcases List.mem_cons.mp hct with h | h
    · subst h
      have hb := max_degrees_inner_bound ct.2 lk
        (fun w hw => hlen ct (List.mem_cons_self _ _) w hw) vp hvp
      exact le_trans hb (max_degrees_outer_mono rest _ vp.1)
    · exact ih (max_degrees_outer lk c)
        (fun w hw vq hvq => by
          unfold max_degrees_outer
          rw [max_degrees_inner_length]
          exact hlen w (List.mem_cons_of_mem _ hw) vq hvq)
        ct h vp hvp

theorem max_degrees_eq_foldl (g : MultiPoly F) :
    max_degrees g = g.terms.foldl max_degrees_outer (List.replicate g.num_vars 0) := rfl

theorem max_degrees_bound (g : MultiPoly F)
    (hvars : ∀ ct ∈ g.terms, ∀ vp ∈ ct.2, vp.1 < g.num_vars) :
    ∀ ct ∈ g.terms, ∀ vp ∈ ct.2, vp.2 ≤ (max_degrees g).getD vp.1 0 := by
  rw [max_degrees_eq_foldl]
  exact max_degrees_outer_bound g.terms (List.replicate g.num_vars 0)
    (fun ct hct vp hvp => by
      rw [List.length_replicate]
      exact hvars ct hct vp hvp)

theorem evaluate_term_deg (r_vec points : List F) (D : ℕ) :
    ∀ (entries : List (ℕ × ℕ)) (acc : F × Option ℕ),
      acc.2.getD 0 ≤ D →
      (∀ vp ∈ entries, vp.1 = r_vec.length → vp.2 ≤ D) →
      (entries.foldl (evaluate_term_step r_vec points) acc).2.getD 0 ≤ D := by
  intro entries
  induction entries with
  | nil => intro acc hacc _; exact hacc
  | cons vp rest ih =>
    intro acc hacc h
    rw [List.foldl_cons]
    apply ih
    · unfold evaluate_term_step
      split
      · exact h vp (List.mem_cons_self _ _) (by assumption)
      · split <;> exact hacc
    · exact fun w hw => h w (List.mem_cons_of_mem _ hw)

theorem evaluate_gj_deg (g : MultiPoly F) (r_vec points : List F) (D : ℕ)
    (h : ∀ ct ∈ g.terms, ∀ vp ∈ ct.2, vp.1 = r_vec.length → vp.2 ≤ D) :
    udegree (evaluate_gj g r_vec points) ≤ D := by
  unfold evaluate_gj
  apply udegree_foldl_uadd_flip_le
  · simp [udegree]
  · intro ct hct
    calc udegree (umonomial ((evaluate_term r_vec points ct.2).2.getD 0)
          (ct.1 * (evaluate_term r_vec points ct.2).1))
        ≤ (evaluate_term r_vec points ct.2).2.getD 0 := udegree_umonomial_le _ _
      _ ≤ D := evaluate_term_deg r_vec points D ct.2 (1, none) (by simp) (h ct hct)

theorem gen_uni_polynomial_deg (g : MultiPoly F) (r_vec : List F)
    (hvars : ∀ ct ∈ g.terms, ∀ vp ∈ ct.2, vp.1 < g.num_vars) :
    udegree (gen_uni_polynomial g r_vec) ≤ (max_degrees g).getD r_vec.length 0 := by
  unfold gen_uni_polynomial
  apply udegree_foldl_uadd_le
  · simp [umonomial, udegree]
  · intro n _
    apply evaluate_gj_deg
    intro ct hct vp hvp hv
    have := max_degrees_bound g hvars ct hct vp hvp
    rwa [hv] at this

theorem sc_rounds_true (g : MultiPoly F) (hg : MPolyInv g) :
    ∀ cs r_vec : List F, cs ≠ [] → r_vec.length + cs.length = g.num_vars →
      sc_rounds g (max_degrees g) cs r_vec (gen_uni_polynomial g r_vec) = true := by
  have hnodup : ∀ ct ∈ g.terms, (ct.2.map Prod.fst).Nodup := fun ct h => (hg ct h).1
  have hvars : ∀ ct ∈ g.terms, ∀ vp ∈ ct.2, vp.1 < g.num_vars := fun ct h => (hg ct h).2
  intro cs
  induction cs with
  | nil => intro r_vec hne _; exact absurd rfl hne
  | cons r cs ih =>
    intro r_vec _ hlen
    rw [List.length_cons] at hlen
    by_cases hcs : cs.isEmpty
    · have hnil : cs = [] := List.isEmpty_iff.mp hcs
      subst hnil
      simp only [sc_rounds, List.isEmpty_nil, if_true]
      rw [round_final g hnodup r_vec r (by simpa using hlen)]
      simp
    · have hnnil : cs ≠ [] := fun h => hcs (by rw [h]; rfl)
      have hpos : 1 ≤ cs.length := List.length_pos.mpr hnnil
      rw [sc_rounds, if_neg (show ¬cs.isEmpty = true from hcs),
        Bool.and_eq_true, Bool.and_eq_true]
      refine ⟨⟨?_, ?_⟩, ?_⟩
      · rw [decide_eq_true_eq]
        exact (round_middle g hnodup r_vec r (by omega)).symm
      · rw [decide_eq_true_eq]
        have := gen_uni_polynomial_deg g (r_vec ++ [r]) hvars
        simpa using this
      · exact ih (r_vec ++ [r]) hnnil (by simp; omega)

theorem verify_iff_slow_sum (g : MultiPoly F) (hg : MPolyInv g) (h0 : 0 < g.num_vars)
    (c : F) (cs : List F) (hcs : cs.length = g.num_vars) :
    verify g c cs = true ↔ c = slow_sum_g g := by
  have hnodup : ∀ ct ∈ g.terms, (ct.2.map Prod.fst).Nodup := fun ct h => (hg ct h).1
  have hvars : ∀ ct ∈ g.terms, ∀ vp ∈ ct.2, vp.1 < g.num_vars := fun ct h => (hg ct h).2
  unfold verify
  have hdeg : udegree (gen_uni_polynomial g []) ≤ (max_degrees g).getD 0 0 := by
    have := gen_uni_polynomial_deg g [] hvars
    simpa using this
  have hrounds : sc_rounds g (max_degrees g) cs [] (gen_uni_polynomial g []) = true := by
    apply sc_rounds_true g hg cs []
    · intro h
      rw [h] at hcs
      simp at hcs
      omega
    · simpa using hcs
  rw [hrounds, decide_eq_true hdeg, Bool.and_true, Bool.and_true, decide_eq_true_eq,
    round_first g hnodup h0]

/-- C6: in the generic sum-check engine, the honest round polynomials of
`Prover::gen_uni_polynomial` satisfy the sum-consistency laws — round 1's
`g_1(0)+g_1(1)` is the true hypercube sum `slow_sum_g g`, and for every later
round `g_i(0)+g_i(1) = g_{i-1}(r_{i-1})` — and `verify` (which checks exactly
these equalities plus the per-variable degree bounds and the final direct
evaluation of `g` at the full challenge vector, all of which the honest
messages satisfy) accepts precisely the true claimed sum. -/
theorem C6_engine_round_laws_and_verify (g : MultiPoly Fr) (hg : MPolyInv g)
    (h0 : 0 < g.num_vars) :
    (ueval (gen_uni_polynomial g []) 0 + ueval (gen_uni_polynomial g []) 1 = slow_sum_g g)
    ∧ (∀ (r_vec : List Fr) (r : Fr), r_vec.length + 2 ≤ g.num_vars →
        ueval (gen_uni_polynomial g (r_vec ++ [r])) 0
            + ueval (gen_uni_polynomial g (r_vec ++ [r])) 1
          = ueval (gen_uni_polynomial g r_vec) r)
    ∧ (∀ (c : Fr) (cs : List Fr), cs.length = g.num_vars →
        (verify g c cs = true ↔ c = slow_sum_g g)) :=
  ⟨round_first g (fun ct h => (hg ct h).1) h0,
   fun r_vec r h => round_middle g (fun ct h2 => (hg ct h2).1) r_vec r h,
   fun c cs hcs => verify_iff_slow_sum g hg h0 c cs hcs⟩

/-- C6 witness: the hypotheses hold for `gWitness` and a length-2 challenge
list, so `verify` accepts its true sum. -/
theorem C6_witness :
    0 < gWitness.num_vars
    ∧ (verify gWitness (slow_sum_g gWitness) [0, 0] = true
        ↔ slow_sum_g gWitness = slow_sum_g gWitness) :=
  ⟨by decide,
   (C6_engine_round_laws_and_verify gWitness (by unfold MPolyInv; decide) (by decide)).2.2
     (slow_sum_g gWitness) [0, 0] (by decide)⟩

theorem verify_rounds_ok (tape : ℕ → F) :
    ∀ (msgs : List (List F)) (base : ℕ) (st : VerifierState F),
      verify_rounds tape msgs base st
        = Except.ok (st, (List.range msgs.length).map (fun i => tape (base + i))) := by
  intro msgs
  induction msgs with
  | nil => intro base st; rfl
  | cons m rest ih =>
    intro base st
    simp only [verify_rounds, verify_round, apply_challenge_verifier]
    rw [ih (base + 1) st]
    have hlist : (List.range (m :: rest).length).map (fun i => tape (base + i))
        = tape base :: (List.range rest.length).map (fun i => tape (base + 1 + i)) := by
      rw [List.length_cons, List.range_succ_eq_map, List.map_cons, List.map_map]
      congr 1
      apply List.map_congr_left
      intro i _
      simp only [Function.comp_apply]
      congr 1
      omega
    rw [hlist]

theorem finalize_init (l : ℕ) (c : F) :
    finalize (verifier_init l c) c = Except.ok ⟨List.replicate l 1, c⟩ := by
  unfold finalize verifier_init
  rw [if_pos rfl]

/-- The dummy protocol accepts any proof of the right shape, with the
all-ones point and the unchanged claimed sum. -/
theorem verify_ok_of_lengths (l : ℕ) (claimed : F) (proof : LinearGKRProof F)
    (tape : ℕ → F) (h1 : proof.phase1_msgs.length = l)
    (h2 : proof.phase2_msgs.length = l) :
    LinearGKRVerifier.verify l claimed proof tape
      = Except.ok ⟨List.replicate l 1, List.replicate l 1, claimed⟩ := by
  unfold LinearGKRVerifier.verify
  rw [if_neg (by push_neg; exact ⟨h1, h2⟩)]
  simp only [verify_rounds_ok tape, finalize_init]

theorem prove_rounds_msgs (tape : ℕ → F) :
    ∀ (n base : ℕ) (st : ProverState F),
      (prove_rounds tape base n st).1 = List.replicate n [0, 1] := by
  intro n
  induction n with
  | zero => intro base st; rfl
  | succ n ih =>
    intro base st
    simp only [prove_rounds, prove_round, List.replicate_succ]
    rw [ih]

theorem prove_msgs_replicate (f1 : SparseMLE F) (f2 f3 : DenseMLE F) (g : List F)
    (tape : ℕ → F) :
    (LinearGKRProver.prove f1 f2 f3 g tape).phase1_msgs
        = List.replicate g.length [0, 1]
    ∧ (LinearGKRProver.prove f1 f2 f3 g tape).phase2_msgs
        = List.replicate g.length [0, 1] := by
  unfold LinearGKRProver.prove
  exact ⟨prove_rounds_msgs tape g.length 0 _, prove_rounds_msgs tape g.length g.length _⟩

/-- C5: for any claimed sum and any proof whose two message lists both have
length `l`, `LinearGKRVerifier::verify` returns `Ok` regardless of the
message contents and of the drawn challenges, with `u = v = ` the all-ones
vector of length `l` and `expected_value = ` the input claimed sum. -/
theorem C5_verifier_accepts_everything (l : ℕ) (claimed : Fr)
    (proof : LinearGKRProof Fr) (tape : ℕ → Fr)
    (h1 : proof.phase1_msgs.length = l) (h2 : proof.phase2_msgs.length = l) :
    LinearGKRVerifier.verify l claimed proof tape
      = Except.ok ⟨List.replicate l 1, List.replicate l 1, claimed⟩ :=
  verify_ok_of_lengths l claimed proof tape h1 h2

/-- C5 witness: a garbage one-round proof against claimed sum 7. -/
theorem C5_witness :
    LinearGKRVerifier.verify 1 (7 : Fr) ⟨[[0]], [[0]]⟩ (fun _ => 0)
      = Except.ok ⟨[1], [1], 7⟩ :=
  C5_verifier_accepts_everything 1 7 ⟨[[0]], [[0]]⟩ (fun _ => 0) rfl rfl

/-- C7: a proof whose `phase1_msgs` or `phase2_msgs` length differs from `l`
is rejected with the length error before any round logic: the result is the
error constant, for every tape and message contents. -/
theorem C7_malformed_proof_rejected (l : ℕ) (claimed : Fr)
    (proof : LinearGKRProof Fr) (tape : ℕ → Fr)
    (h : proof.phase1_msgs.length ≠ l ∨ proof.phase2_msgs.length ≠ l) :
    LinearGKRVerifier.verify l claimed proof tape
      = Except.error "Invalid proof length" := by
  unfold LinearGKRVerifier.verify
  rw [if_pos h]

/-- C7 witness: the empty proof against `l = 1`. -/
theorem C7_witness :
    LinearGKRVerifier.verify 1 (0 : Fr) ⟨[], []⟩ (fun _ => 0)
      = Except.error "Invalid proof length" :=
  C7_malformed_proof_rejected 1 0 ⟨[], []⟩ (fun _ => 0) (Or.inl (by decide))

/-- C4: the concrete scenario.  The prover's phase-one table is
`h_g = [9, 9]`, its internally computed phase-1 claimed sum
(`compute_claimed_sum h_g f2`) is 45, and the generated proof verifies
against the public claimed sum 45. -/
theorem C4_concrete_scenario :
    (initialize_phase_one f1_test f3_test g_test).1.evaluations = [9, 9]
    ∧ compute_claimed_sum (initialize_phase_one f1_test f3_test g_test).1 f2_test = 45
    ∧ LinearGKRVerifier.verify 1 (45 : Fr)
        (LinearGKRProver.prove f1_test f2_test f3_test g_test (fun _ => 0)) (fun _ => 0)
      = Except.ok ⟨[1], [1], 45⟩ := by
  refine ⟨by decide, by decide, ?_⟩
  apply verify_ok_of_lengths
  · rw [(prove_msgs_replicate f1_test f2_test f3_test g_test (fun _ => 0)).1]
    rfl
  · rw [(prove_msgs_replicate f1_test f2_test f3_test g_test (fun _ => 0)).2]
    rfl

/-- C1 (evidence of the code bug): the proof generated for the concrete
scenario, checked against the WRONG claimed sum 44, is nevertheless accepted
— `verify` returns `Ok` (the dummy `verify_round`/`finalize` accept
anything), where the spec requires rejection. -/
theorem C1_wrong_claimed_sum_accepted :
    LinearGKRVerifier.verify 1 (44 : Fr)
        (LinearGKRProver.prove f1_test f2_test f3_test g_test (fun _ => 0)) (fun _ => 0)
      = Except.ok ⟨[1], [1], 44⟩ := by
  apply verify_ok_of_lengths
  · rw [(prove_msgs_replicate f1_test f2_test f3_test g_test (fun _ => 0)).1]
    rfl
  · rw [(prove_msgs_replicate f1_test f2_test f3_test g_test (fun _ => 0)).2]
    rfl

/-- C3 (evidence of the code bug): with the challenge tape constantly 0, a
well-shaped proof is accepted and the returned subclaim has `u = v = [1]`
(the `finalize` placeholder point) although the drawn challenge 0 differs
from 1 — the subclaim does not carry the drawn challenges. -/
theorem C3_subclaim_point_not_challenges :
    LinearGKRVerifier.verify 1 (5 : Fr) ⟨[[0, 1]], [[0, 1]]⟩ (fun _ => 0)
      = Except.ok ⟨[1], [1], 5⟩ ∧ (0 : Fr) ≠ 1 :=
  ⟨verify_ok_of_lengths 1 5 ⟨[[0, 1]], [[0, 1]]⟩ (fun _ => 0) rfl rfl, by decide⟩

/-- C2 (evidence of the code bug): on the failing input (`l = 1`,
`f1 = {2 ↦ 1}`, `g = [0]`, `f3 = [1, 0]`), `initialize_phase_one` produces
`[0, 0]` — it reads the `x`-half from the LOW-order bits — while the spec's
table (`x` in the high-order half, as the repo's MSB-first encoding and the
code's own comment prescribe) is `[0, 1]`. -/
theorem C2_phase_one_x_half_swapped :
    (initialize_phase_one f1_c2 f3_c2 g_c2).1.evaluations = [0, 0]
    ∧ hg_spec (f1_c2.fix_variables g_c2) f3_c2 1 = [0, 1] := by
  constructor <;> decide

end GKR

